import Mathlib

/-!
Verification of the record-intake service in `src/app.py`.

The program is a small Flask application: a validated form (`UserForm`)
feeds the POST branch of `index`, which strips and HTML-escapes the three
fields and appends one row to the `first_app` table (model `FirstApp`);
the GET path lists all rows; `search_user` runs a fixed parameterized
query `SELECT * FROM first_app WHERE fname = :fname` and prints the
matches.  This file embeds that logic shallowly: rows are a Lean
structure, the store is a list of rows, submission is a pure function
returning either the new store or the per-field validation errors.
-/

namespace RecordIntake

/-- One row of the table declared by the SQLAlchemy model `FirstApp`:
columns `sno` (integer primary key, autoincrement), `fname` (String 100),
`lname` (String 100), `email` (String 200). -/
structure FirstApp where
  sno : Nat
  fname : String
  lname : String
  email : String
  deriving DecidableEq

/-- The persisted state: the rows of the table, in insertion (rowid) order. -/
abbrev Store := List FirstApp

/-- The whitespace characters removed by Python `str.strip()`:
space, tab, newline, carriage return, vertical tab, form feed. -/
def isPyWhitespace (c : Char) : Bool :=
  c == ' ' || c == '\t' || c == '\n' || c == '\r' ||
  c == Char.ofNat 11 || c == Char.ofNat 12

/-- Remove the trailing whitespace run (Python `str.rstrip()`). -/
def rstripChars (l : List Char) : List Char :=
  (l.reverse.dropWhile isPyWhitespace).reverse

/-- Python `str.strip()`: remove leading and trailing whitespace. -/
def stripChars (l : List Char) : List Char :=
  (rstripChars l).dropWhile isPyWhitespace

/-- Python `str.strip()` on a string, as used by `index` and `DataRequired`. -/
def pyStrip (s : String) : String := ⟨stripChars s.data⟩

/-- `markupsafe.escape` on a single character: the five HTML-special
characters become entities, everything else is kept. -/
def escapeChar (c : Char) : List Char :=
  if c == '&' then ['&', 'a', 'm', 'p', ';']
  else if c == '<' then ['&', 'l', 't', ';']
  else if c == '>' then ['&', 'g', 't', ';']
  else if c == Char.ofNat 34 then ['&', '#', '3', '4', ';']
  else if c == Char.ofNat 39 then ['&', '#', '3', '9', ';']
  else [c]

/-- `markupsafe.escape` on a character list. -/
def escapeList (l : List Char) : List Char :=
  l.foldr (fun c acc => escapeChar c ++ acc) []

/-- `markupsafe.escape` as applied to each field in `index`. -/
def escape (s : String) : String := ⟨escapeList s.data⟩

/-- A character accepted by the name pattern `[A-Za-z ]`. -/
def isNameChar (c : Char) : Bool := c.isAlpha || c == ' '

/-- What Python's `re.match` with pattern `^[A-Za-z ]+$` actually examines:
`$` also matches just before a single newline at the end of the string,
so such a trailing newline is outside the matched body. -/
def regexBody (l : List Char) : List Char :=
  if l.getLast? == some '\n' then l.dropLast else l

/-- The `Regexp(r'^[A-Za-z ]+$')` validator check (Python `re.match`
semantics, including the trailing-newline tolerance of `$`). -/
def matchesNameRegexp (s : String) : Bool :=
  !(regexBody s.data).isEmpty && (regexBody s.data).all isNameChar

/-- Python `str.split(sep)` for a one-character separator. -/
def splitOnChar (sep : Char) : List Char → List (List Char)
  | [] => [[]]
  | c :: rest =>
    match splitOnChar sep rest with
    | [] => [[c]]
    | h :: t => if c == sep then [] :: h :: t else (c :: h) :: t

/-- A character of an RFC 5322 `atext` atom (letters, digits, and the
printable specials permitted in an unquoted email local part). -/
def isAtext (c : Char) : Bool :=
  c.isAlphanum ||
  [33, 35, 36, 37, 38, 39, 42, 43, 45, 47, 61, 63, 94, 95, 96,
   123, 124, 125, 126].contains c.toNat

/-- Modelled from the spec: "well-formed email syntax".  The `Email`
validator of `UserForm` delegates to the external email-validator
library, which is not part of this repository; following the spec's
words it is modelled as: a dot-atom local part (nonempty atoms of
`atext` characters separated by single dots), exactly one `@`, and a
domain of at least two nonempty labels of letters, digits and hyphens
separated by dots. -/
def isValidEmail (s : String) : Bool :=
  match splitOnChar '@' s.data with
  | [lp, dom] =>
    (splitOnChar '.' lp).all (fun p => !p.isEmpty && p.all isAtext) &&
    decide (2 ≤ (splitOnChar '.' dom).length) &&
    (splitOnChar '.' dom).all
      (fun p => !p.isEmpty && p.all (fun c => c.isAlphanum || c == '-'))
  | _ => false

/-- The reason a field's validator chain reports. -/
inductive FieldError where
  | required
  | badLength
  | badChars
  | badEmail
  deriving DecidableEq

/-- The `fname` / `lname` validator chain of `UserForm`:
`DataRequired()` (fails on a missing field and on a string whose strip is
empty), `Length(min=2, max=100)` (on the raw, unstripped data), and
`Regexp(r'^[A-Za-z ]+$')`. -/
def validateName (d : Option String) : Option FieldError :=
  match d with
  | none => some .required
  | some s =>
    if s = "" ∨ pyStrip s = "" then some .required
    else if ¬ (2 ≤ s.length ∧ s.length ≤ 100) then some .badLength
    else if ¬ matchesNameRegexp s = true then some .badChars
    else none

/-- The `email` validator chain of `UserForm`: `DataRequired()`,
`Email()`, `Length(max=200)` (on the raw data). -/
def validateEmail (d : Option String) : Option FieldError :=
  match d with
  | none => some .required
  | some s =>
    if s = "" ∨ pyStrip s = "" then some .required
    else if ¬ isValidEmail s = true then some .badEmail
    else if ¬ s.length ≤ 200 then some .badLength
    else none

/-- A candidate submission: each form field is present or missing. -/
structure Submission where
  fname : Option String
  lname : Option String
  email : Option String
  deriving DecidableEq

/-- The per-field validation outcome of the whole form. -/
structure FieldErrors where
  fname : Option FieldError
  lname : Option FieldError
  email : Option FieldError
  deriving DecidableEq

/-- `form.validate_on_submit()`: run every field's validator chain. -/
def validateForm (sub : Submission) : FieldErrors :=
  ⟨validateName sub.fname, validateName sub.lname, validateEmail sub.email⟩

/-- The error value of a form that validates cleanly. -/
def noErrors : FieldErrors := ⟨none, none, none⟩

/-- The largest primary key present in the table (0 when empty). -/
def maxSno (st : Store) : Nat := st.foldr (fun r a => max r.sno a) 0

/-- SQLite's autoincrement assignment for the next inserted row. -/
def nextSno (st : Store) : Nat := maxSno st + 1

/-- What `index` does to each validated field before persisting it:
`escape(form.field.data.strip())`. -/
def sanitize (s : String) : String := escape (pyStrip s)

/-- The POST branch of `index`: when the form validates, strip and escape
the three fields and append one new row with the auto-assigned id;
otherwise report the per-field errors and leave the table alone.
When validation passed every field is necessarily present, so reading
the field data with a default is exact. -/
def submit (st : Store) (sub : Submission) : Except FieldErrors Store :=
  if validateForm sub = noErrors then
    .ok (st ++ [⟨nextSno st,
      sanitize (sub.fname.getD ""), sanitize (sub.lname.getD ""),
      sanitize (sub.email.getD "")⟩])
  else
    .error (validateForm sub)

/-- The state transition of one `index` POST request. -/
def submitOp (st : Store) (sub : Submission) : Store :=
  match submit st sub with
  | .ok st2 => st2
  | .error _ => st

/-- `FirstApp.query.all()`: every stored row, in insertion order. -/
def listRecords (st : Store) : List FirstApp := st

/-- The read-only listing request: its result and the state afterwards. -/
def listOp (st : Store) : List FirstApp × Store := (listRecords st, st)

/-- `FirstApp.__table__.name`. -/
def tableName : String := "first_app"

/-- The SQL text built by `search_user`.  It is an f-string over the
table name only: the searched-for name is not part of the text. -/
def searchQueryText (_ : String) : String :=
  "SELECT * FROM " ++ tableName ++ " WHERE fname = :fname"

/-- The bound parameters passed alongside the query text. -/
def searchParams (name : String) : List (String × String) :=
  [("fname", name)]

/-- The rows produced by the parameterized query: exact equality on the
`fname` column, in stored order. -/
def findByFirstName (st : Store) (name : String) : List FirstApp :=
  st.filter (fun r => r.fname == name)

/-- The read-only search request: its rows and the state afterwards. -/
def searchOp (st : Store) (name : String) : List FirstApp × Store :=
  (findByFirstName st name, st)

/-- One output line of `search_user`. -/
def rowLine (r : FirstApp) : String :=
  r.fname ++ " " ++ r.lname ++ " (" ++ r.email ++ ")<br>"

/-- The text `search_user` returns: the concatenated match lines, or the
explicit no-match message. -/
def searchUserOutput (st : Store) (name : String) : String :=
  let out := ((findByFirstName st name).map rowLine).foldl (· ++ ·) ""
  if out = "" then "No records found" else out

/-- A value in a fetched SQL row. -/
inductive SqlValue where
  | intVal (n : Nat)
  | strVal (s : String)
  deriving DecidableEq

/-- A fetched row of `SELECT *`, in the table's declared column order
`(sno, fname, lname, email)`. -/
def rowOfRecord (r : FirstApp) : List SqlValue :=
  [.intVal r.sno, .strVal r.fname, .strVal r.lname, .strVal r.email]

/-- The column names of the table, in declared order. -/
def tableColumns : List String := ["sno", "fname", "lname", "email"]

/-- Dict-style row access by column name, as in `row['fname']`. -/
def rowDictGet (row : List SqlValue) (col : String) : Option SqlValue :=
  match tableColumns.findIdx? (fun c => c == col) with
  | some i => row.get? i
  | none => none

/-- The spec's data-model constraint on a name field: 2 to 100
characters, letters and spaces only. -/
def specValidName (s : String) : Bool :=
  decide (2 ≤ s.length) && decide (s.length ≤ 100) && s.data.all isNameChar

/-- The spec's data-model constraint on the email field: well-formed and
at most 200 characters. -/
def specValidEmail (s : String) : Bool :=
  isValidEmail s && decide (s.length ≤ 200)

/-- Name validity as amended for the trailing-newline tolerance of the
pattern match: the matched body (the string, less one optional final
newline) is nonempty and consists of letters and spaces, and the raw
length is 2 to 100. -/
def amendedValidName (s : String) : Bool :=
  decide (2 ≤ s.length) && decide (s.length ≤ 100) &&
  !(regexBody s.data).isEmpty && (regexBody s.data).all isNameChar

/-- Amended name validity of an optional form value (missing = invalid). -/
def amendedValidNameOpt : Option String → Bool
  | none => false
  | some s => amendedValidName s

/-- Spec email validity of an optional form value (missing = invalid). -/
def specValidEmailOpt : Option String → Bool
  | none => false
  | some s => specValidEmail s

/-- No character that is raw markup in rendered output. -/
def noRawMarkup (s : String) : Bool :=
  s.data.all (fun c =>
    !(c == '<' || c == '>' || c == Char.ofNat 34 || c == Char.ofNat 39))

/-- A sequence of `index` POST requests, applied left to right. -/
def submitMany (st : Store) (inputs : List (String × String × String)) : Store :=
  inputs.foldl (fun s i => submitOp s ⟨some i.1, some i.2.1, some i.2.2⟩) st

/-- Whether a triple of field values is accepted by the form validators. -/
def acceptedB (i : String × String × String) : Bool :=
  validateForm ⟨some i.1, some i.2.1, some i.2.2⟩ == noErrors

/-- The three text fields of a stored row. -/
def fields (r : FirstApp) : String × String × String :=
  (r.fname, r.lname, r.email)

/-- The sanitized values of a submitted triple of field values. -/
def sanitizeTriple (i : String × String × String) : String × String × String :=
  (sanitize i.1, sanitize i.2.1, sanitize i.2.2)

/-- What actually holds of a freshly inserted row: names are nonempty
strings of at most 100 letters and spaces (the 2-character minimum is
checked before stripping), and the email column holds the HTML-escape of
the stripped form of some well-formed email of at most 200 characters. -/
def storedOk (r : FirstApp) : Prop :=
  1 ≤ r.fname.length ∧ r.fname.length ≤ 100 ∧
  r.fname.data.all isNameChar = true ∧
  1 ≤ r.lname.length ∧ r.lname.length ≤ 100 ∧
  r.lname.data.all isNameChar = true ∧
  ∃ e0 : String, isValidEmail e0 = true ∧ e0.length ≤ 200 ∧
    r.email = sanitize e0

/-! ### Stripping lemmas -/

theorem head?_dropWhile_false {p : Char → Bool} {l : List Char} {c : Char}
    (h : (l.dropWhile p).head? = some c) : p c = false := by
  induction l with
  | nil => simp [List.dropWhile] at h
  | cons a t ih =>
    rw [List.dropWhile_cons] at h
    by_cases hpa : p a = true
    · rw [if_pos hpa] at h
      exact ih h
    · rw [if_neg hpa] at h
      simp only [List.head?_cons, Option.some.injEq] at h
      subst h
      simpa using hpa

theorem dropWhile_eq_self_of_head {p : Char → Bool} {l : List Char}
    (h : ∀ c, l.head? = some c → p c = false) : l.dropWhile p = l := by
  cases l with
  | nil => rfl
  | cons a t =>
    rw [List.dropWhile_cons, if_neg]
    simp [h a rfl]

theorem mem_dropWhile_of_mem {p : Char → Bool} {c : Char} {l : List Char}
    (hc : c ∈ l) (hpc : p c = false) : c ∈ l.dropWhile p := by
  induction l with
  | nil => cases hc
  | cons a t ih =>
    rw [List.dropWhile_cons]
    by_cases hpa : p a = true
    · rw [if_pos hpa]
      rcases List.mem_cons.mp hc with h | h
      · subst h; simp [hpa] at hpc
      · exact ih h
    · rw [if_neg hpa]
      exact hc

theorem getLast?_dropWhile {p : Char → Bool} {l : List Char}
    (h : l.dropWhile p ≠ []) : (l.dropWhile p).getLast? = l.getLast? := by
  induction l with
  | nil => simp [List.dropWhile] at h
  | cons a t ih =>
    rw [List.dropWhile_cons] at h ⊢
    by_cases hpa : p a = true
    · rw [if_pos hpa] at h ⊢
      rw [ih h]
      cases t with
      | nil => simp [List.dropWhile] at h
      | cons b u => simp [List.getLast?_cons_cons]
    · rw [if_neg hpa]

theorem mem_stripChars {c : Char} {l : List Char}
    (hc : c ∈ l) (hpc : isPyWhitespace c = false) : c ∈ stripChars l := by
  unfold stripChars rstripChars
  refine mem_dropWhile_of_mem ?_ hpc
  rw [List.mem_reverse]
  exact mem_dropWhile_of_mem (List.mem_reverse.mpr hc) hpc

theorem mem_of_mem_stripChars {c : Char} {l : List Char}
    (hc : c ∈ stripChars l) : c ∈ l := by
  unfold stripChars rstripChars at hc
  have h1 := List.Sublist.mem hc (List.dropWhile_sublist _)
  rw [List.mem_reverse] at h1
  have h2 := List.Sublist.mem h1 (List.dropWhile_sublist _)
  rwa [List.mem_reverse] at h2

theorem length_stripChars_le (l : List Char) :
    (stripChars l).length ≤ l.length := by
  unfold stripChars rstripChars
  calc ((l.reverse.dropWhile isPyWhitespace).reverse.dropWhile isPyWhitespace).length
      ≤ (l.reverse.dropWhile isPyWhitespace).reverse.length :=
        (List.dropWhile_sublist _).length_le
    _ = (l.reverse.dropWhile isPyWhitespace).length := List.length_reverse _
    _ ≤ l.reverse.length := (List.dropWhile_sublist _).length_le
    _ = l.length := List.length_reverse _

theorem rstrip_eq_self_of_getLast {l : List Char}
    (h : ∀ c, l.getLast? = some c → isPyWhitespace c = false) :
    rstripChars l = l := by
  unfold rstripChars
  rw [dropWhile_eq_self_of_head, List.reverse_reverse]
  intro c hc
  rw [List.head?_reverse] at hc
  exact h c hc

theorem stripChars_idem (x : List Char) :
    stripChars (stripChars x) = stripChars x := by
  by_cases hm : stripChars x = []
  · rw [hm]; rfl
  · have hhead : ∀ c, (stripChars x).head? = some c → isPyWhitespace c = false := by
      intro c hc
      unfold stripChars at hc
      exact head?_dropWhile_false hc
    have hlast : ∀ c, (stripChars x).getLast? = some c → isPyWhitespace c = false := by
      intro c hc
      unfold stripChars at hc hm
      rw [getLast?_dropWhile hm] at hc
      unfold rstripChars at hc
      rw [List.getLast?_reverse] at hc
      exact head?_dropWhile_false hc
    show ((rstripChars (stripChars x)).dropWhile isPyWhitespace) = stripChars x
    rw [rstrip_eq_self_of_getLast hlast]
    exact dropWhile_eq_self_of_head hhead

theorem stripChars_ne_of_head {l : List Char} {c : Char}
    (hh : l.head? = some c) (hws : isPyWhitespace c = true) :
    stripChars l ≠ l := by
  intro he
  have hc : (stripChars l).head? = some c := by rw [he]; exact hh
  unfold stripChars at hc
  have := head?_dropWhile_false hc
  rw [hws] at this
  cases this

/-! ### Escaping lemmas -/

theorem escapeList_cons (c : Char) (t : List Char) :
    escapeList (c :: t) = escapeChar c ++ escapeList t := rfl

theorem escapeList_append (x y : List Char) :
    escapeList (x ++ y) = escapeList x ++ escapeList y := by
  induction x with
  | nil => rfl
  | cons a t ih =>
    simp only [List.cons_append, escapeList_cons, ih, List.append_assoc]

theorem escapeList_singleton (c : Char) : escapeList [c] = escapeChar c := by
  simp [escapeList]

theorem isPyWhitespace_elim {c : Char} (h : isPyWhitespace c = true) :
    c = ' ' ∨ c = '\t' ∨ c = '\n' ∨ c = '\r' ∨
    c = Char.ofNat 11 ∨ c = Char.ofNat 12 := by
  simp only [isPyWhitespace, Bool.or_eq_true, beq_iff_eq] at h
  tauto

theorem escapeChar_of_ws {c : Char} (h : isPyWhitespace c = true) :
    escapeChar c = [c] := by
  rcases isPyWhitespace_elim h with rfl | rfl | rfl | rfl | rfl | rfl <;> decide

theorem dropWhile_cons_of_false {p : Char → Bool} {a : Char} (t : List Char)
    (h : p a = false) : (a :: t).dropWhile p = a :: t := by
  rw [List.dropWhile_cons, if_neg]
  simp [h]

theorem dropWhile_ws_escapeChar_append {c : Char}
    (h : isPyWhitespace c = false) (y : List Char) :
    (escapeChar c ++ y).dropWhile isPyWhitespace = escapeChar c ++ y := by
  unfold escapeChar
  split_ifs with h1 h2 h3 h4 h5 <;>
    simp only [List.cons_append, List.nil_append] <;>
    exact dropWhile_cons_of_false _ (by first | decide | exact h)

theorem rstrip_append_single (l : List Char) (c : Char) :
    rstripChars (l ++ [c]) =
      if isPyWhitespace c then rstripChars l else l ++ [c] := by
  unfold rstripChars
  rw [List.reverse_append]
  simp only [List.reverse_cons, List.reverse_nil, List.nil_append,
    List.singleton_append]
  rw [List.dropWhile_cons]
  split_ifs with h
  · rfl
  · simp

theorem rstrip_append_escapeChar {c : Char}
    (h : isPyWhitespace c = false) (y : List Char) :
    rstripChars (y ++ escapeChar c) = y ++ escapeChar c := by
  unfold escapeChar
  split_ifs with h1 h2 h3 h4 h5
  · rw [show y ++ ['&', 'a', 'm', 'p', ';'] = (y ++ ['&', 'a', 'm', 'p']) ++ [';'] by simp]
    rw [rstrip_append_single, if_neg (by decide)]
  · rw [show y ++ ['&', 'l', 't', ';'] = (y ++ ['&', 'l', 't']) ++ [';'] by simp]
    rw [rstrip_append_single, if_neg (by decide)]
  · rw [show y ++ ['&', 'g', 't', ';'] = (y ++ ['&', 'g', 't']) ++ [';'] by simp]
    rw [rstrip_append_single, if_neg (by decide)]
  · rw [show y ++ ['&', '#', '3', '4', ';'] = (y ++ ['&', '#', '3', '4']) ++ [';'] by simp]
    rw [rstrip_append_single, if_neg (by decide)]
  · rw [show y ++ ['&', '#', '3', '9', ';'] = (y ++ ['&', '#', '3', '9']) ++ [';'] by simp]
    rw [rstrip_append_single, if_neg (by decide)]
  · rw [rstrip_append_single, if_neg (by simp [h])]

theorem rstrip_escapeList (x : List Char) :
    rstripChars (escapeList x) = escapeList (rstripChars x) := by
  induction x using List.reverseRecOn with
  | nil => rfl
  | append_singleton l c ih =>
    rw [escapeList_append, escapeList_singleton, rstrip_append_single]
    by_cases hws : isPyWhitespace c = true
    · rw [if_pos hws, escapeChar_of_ws hws, rstrip_append_single, if_pos hws, ih]
    · have hws2 : isPyWhitespace c = false := by simpa using hws
      rw [if_neg (by simp [hws2]), rstrip_append_escapeChar hws2,
        escapeList_append, escapeList_singleton]

theorem dropWhile_ws_escapeList (x : List Char) :
    (escapeList x).dropWhile isPyWhitespace =
      escapeList (x.dropWhile isPyWhitespace) := by
  induction x with
  | nil => rfl
  | cons c t ih =>
    rw [escapeList_cons, List.dropWhile_cons]
    by_cases hws : isPyWhitespace c = true
    · rw [if_pos hws, escapeChar_of_ws hws]
      simp only [List.singleton_append]
      rw [List.dropWhile_cons, if_pos hws, ih]
    · have hws2 : isPyWhitespace c = false := by simpa using hws
      rw [if_neg hws, dropWhile_ws_escapeChar_append hws2, escapeList_cons]

theorem strip_escapeList (x : List Char) :
    stripChars (escapeList x) = escapeList (stripChars x) := by
  unfold stripChars
  rw [rstrip_escapeList, dropWhile_ws_escapeList]

theorem pyStrip_sanitize (s : String) : pyStrip (sanitize s) = sanitize s := by
  unfold sanitize escape pyStrip
  congr 1
  rw [show (String.mk (escapeList (stripChars s.data))).data =
      escapeList (stripChars s.data) from rfl]
  rw [strip_escapeList, stripChars_idem]

theorem stripChars_ne_of_getLast {l : List Char} {c : Char}
    (hh : l.getLast? = some c) (hws : isPyWhitespace c = true) :
    stripChars l ≠ l := by
  intro he
  have hne : l ≠ [] := by
    intro h0; subst h0; simp at hh
  have hne2 : stripChars l ≠ [] := by rw [he]; exact hne
  have hc : (stripChars l).getLast? = some c := by rw [he]; exact hh
  unfold stripChars at hc hne2
  rw [getLast?_dropWhile hne2] at hc
  unfold rstripChars at hc
  rw [List.getLast?_reverse] at hc
  have := head?_dropWhile_false hc
  rw [hws] at this
  cases this

/-! ### Name characters under escaping -/

theorem isAlpha_not_special {c : Char} (h : c.isAlpha = true) :
    (c == '&') = false ∧ (c == '<') = false ∧ (c == '>') = false ∧
    (c == Char.ofNat 34) = false ∧ (c == Char.ofNat 39) = false := by
  refine ⟨?_, ?_, ?_, ?_, ?_⟩ <;>
  · rw [beq_eq_false_iff_ne]
    intro heq
    subst heq
    exact absurd h (by decide)

theorem escapeChar_of_nameChar {c : Char} (h : isNameChar c = true) :
    escapeChar c = [c] := by
  unfold isNameChar at h
  rw [Bool.or_eq_true, beq_iff_eq] at h
  rcases h with h | rfl
  · obtain ⟨h1, h2, h3, h4, h5⟩ := isAlpha_not_special h
    simp [escapeChar, h1, h2, h3, h4, h5]
  · decide

theorem escapeList_eq_self_of_nameChars {l : List Char}
    (h : ∀ c ∈ l, isNameChar c = true) : escapeList l = l := by
  induction l with
  | nil => rfl
  | cons a t ih =>
    rw [escapeList_cons, escapeChar_of_nameChar (h a (List.mem_cons_self a t)),
      List.singleton_append, ih fun c hc => h c (List.mem_cons_of_mem a hc)]

theorem stripChars_of_matches {s : String} (h : matchesNameRegexp s = true) :
    ∀ c ∈ stripChars s.data, isNameChar c = true := by
  unfold matchesNameRegexp at h
  rw [Bool.and_eq_true, List.all_eq_true] at h
  obtain ⟨-, hall⟩ := h
  unfold regexBody at hall
  by_cases hl : (s.data.getLast? == some '\n') = true
  · rw [if_pos hl] at hall
    rw [beq_iff_eq] at hl
    have hne : s.data ≠ [] := by
      intro h0; rw [h0] at hl; simp at hl
    have hgl : s.data.getLast hne = '\n' := by
      have := List.getLast?_eq_getLast s.data hne
      rw [hl] at this
      exact (Option.some.injEq _ _ ▸ this).symm
    have hdecomp : s.data.dropLast ++ ['\n'] = s.data := by
      rw [← hgl]
      exact List.dropLast_append_getLast hne
    intro c hc
    rw [← hdecomp] at hc
    have hstrip : stripChars (s.data.dropLast ++ ['\n']) = stripChars s.data.dropLast := by
      unfold stripChars
      rw [rstrip_append_single, if_pos (by decide)]
    rw [hstrip] at hc
    exact hall c (mem_of_mem_stripChars hc)
  · rw [if_neg hl] at hall
    intro c hc
    exact hall c (mem_of_mem_stripChars hc)

theorem sanitize_of_matches {s : String} (h : matchesNameRegexp s = true) :
    sanitize s = pyStrip s := by
  unfold sanitize escape pyStrip
  congr 1
  exact escapeList_eq_self_of_nameChars (stripChars_of_matches h)

/-! ### Validator characterizations -/

theorem validateName_none_iff (s : String) :
    validateName (some s) = none ↔
      ¬(s = "" ∨ pyStrip s = "") ∧ (2 ≤ s.length ∧ s.length ≤ 100) ∧
      matchesNameRegexp s = true := by
  rw [show validateName (some s) =
      (if s = "" ∨ pyStrip s = "" then some FieldError.required
       else if ¬(2 ≤ s.length ∧ s.length ≤ 100) then some FieldError.badLength
       else if ¬matchesNameRegexp s = true then some FieldError.badChars
       else none) from rfl]
  split_ifs with h1 h2 h3
  all_goals
    first
      | exact iff_of_true rfl (by tauto)
      | exact iff_of_false (by simp) (by tauto)

theorem validateEmail_none_iff (s : String) :
    validateEmail (some s) = none ↔
      ¬(s = "" ∨ pyStrip s = "") ∧ isValidEmail s = true ∧ s.length ≤ 200 := by
  rw [show validateEmail (some s) =
      (if s = "" ∨ pyStrip s = "" then some FieldError.required
       else if ¬isValidEmail s = true then some FieldError.badEmail
       else if ¬s.length ≤ 200 then some FieldError.badLength
       else none) from rfl]
  split_ifs with h1 h2 h3
  all_goals
    first
      | exact iff_of_true rfl (by tauto)
      | exact iff_of_false (by simp) (by tauto)

/-! ### Splitting and the email model -/

theorem splitOnChar_ne_nil (sep : Char) (l : List Char) :
    splitOnChar sep l ≠ [] := by
  cases l with
  | nil => simp [splitOnChar]
  | cons c t =>
    rw [splitOnChar]
    cases h : splitOnChar sep t with
    | nil => simp
    | cons hd tl => split_ifs <;> simp

theorem splitOnChar_length (sep : Char) (l : List Char) :
    (splitOnChar sep l).length = l.count sep + 1 := by
  induction l with
  | nil => simp [splitOnChar]
  | cons c t ih =>
    cases h : splitOnChar sep t with
    | nil => exact absurd h (splitOnChar_ne_nil sep t)
    | cons hd tl =>
      rw [h] at ih
      have hred : splitOnChar sep (c :: t) =
          if c == sep then [] :: hd :: tl else (c :: hd) :: tl := by
        rw [splitOnChar, h]
      rw [hred]
      by_cases hc : (c == sep) = true
      · rw [if_pos hc]
        have hceq : c = sep := beq_iff_eq.mp hc
        simp only [List.length_cons, List.count_cons, hceq] at ih ⊢
        simp
        omega
      · rw [if_neg hc]
        have hcne : ¬ c = sep := by simpa using hc
        simp only [List.length_cons, List.count_cons] at ih ⊢
        simp [hcne]
        omega

theorem at_mem_of_isValidEmail {s : String} (h : isValidEmail s = true) :
    '@' ∈ s.data := by
  unfold isValidEmail at h
  rcases hsp : splitOnChar '@' s.data with _ | ⟨lp, _ | ⟨dom, _ | ⟨x, rest⟩⟩⟩
  · rw [hsp] at h; simp at h
  · rw [hsp] at h; simp at h
  · have hlen := splitOnChar_length '@' s.data
    rw [hsp] at hlen
    simp only [List.length_cons, List.length_nil] at hlen
    have : 0 < s.data.count '@' := by omega
    exact List.count_pos_iff.mp this
  · rw [hsp] at h; simp at h

theorem pyStrip_ne_empty_of_mem {s : String} {c : Char}
    (hc : c ∈ s.data) (hws : isPyWhitespace c = false) : pyStrip s ≠ "" := by
  intro h
  have hd : stripChars s.data = ([] : List Char) := congrArg String.data h
  have hmem := mem_stripChars hc hws
  rw [hd] at hmem
  cases hmem

theorem data_ne_nil_of_two_le {s : String} (h : 2 ≤ s.length) : s.data ≠ [] := by
  intro h0
  have : s.length = 0 := by
    show s.data.length = 0
    rw [h0]; rfl
  omega

theorem ne_empty_of_two_le {s : String} (h : 2 ≤ s.length) : s ≠ "" := by
  intro h0
  subst h0
  exact absurd h (by decide)

theorem validateName_none_of_spec {s : String}
    (h : specValidName s = true) (hs : pyStrip s ≠ "") :
    validateName (some s) = none := by
  rw [validateName_none_iff]
  unfold specValidName at h
  rw [Bool.and_eq_true, Bool.and_eq_true] at h
  obtain ⟨⟨h2, h100⟩, hall⟩ := h
  rw [decide_eq_true_eq] at h2 h100
  rw [List.all_eq_true] at hall
  have hne : s ≠ "" := ne_empty_of_two_le h2
  refine ⟨by tauto, ⟨h2, h100⟩, ?_⟩
  unfold matchesNameRegexp regexBody
  have hlast : (s.data.getLast? == some '\n') = false := by
    rw [beq_eq_false_iff_ne]
    intro hl
    have hmem : '\n' ∈ s.data := by
      obtain ⟨hne0, heq⟩ :=
        List.mem_getLast?_eq_getLast (l := s.data) (x := '\n') (Option.mem_def.mpr hl)
      rw [heq]
      exact List.getLast_mem hne0
    have := hall _ hmem
    exact absurd this (by decide)
  rw [hlast]
  simp only [Bool.false_eq_true, if_false, Bool.and_eq_true, List.all_eq_true]
  constructor
  · simp [List.isEmpty_iff, data_ne_nil_of_two_le h2]
  · exact hall

theorem validateEmail_none_of_spec {e : String} (h : specValidEmail e = true) :
    validateEmail (some e) = none := by
  unfold specValidEmail at h
  rw [Bool.and_eq_true] at h
  obtain ⟨hv, hlen⟩ := h
  rw [decide_eq_true_eq] at hlen
  have hat := at_mem_of_isValidEmail hv
  rw [validateEmail_none_iff]
  refine ⟨?_, hv, hlen⟩
  rintro (h0 | h0)
  · rw [h0] at hat; simp at hat
  · exact pyStrip_ne_empty_of_mem hat (by decide) h0

/-! ### Submission lemmas -/

theorem validateForm_eq_noErrors_iff (sub : Submission) :
    validateForm sub = noErrors ↔
      validateName sub.fname = none ∧ validateName sub.lname = none ∧
      validateEmail sub.email = none := by
  unfold validateForm noErrors
  rw [FieldErrors.mk.injEq]

theorem validateName_some_self {d : Option String} (h : validateName d = none) :
    d = some (d.getD "") := by
  cases d with
  | none => simp [validateName] at h
  | some s => rfl

theorem submit_ok_of_valid (st : Store) (sub : Submission)
    (h : validateForm sub = noErrors) :
    submit st sub = .ok (st ++ [⟨nextSno st,
      sanitize (sub.fname.getD ""), sanitize (sub.lname.getD ""),
      sanitize (sub.email.getD "")⟩]) := by
  unfold submit
  rw [if_pos h]

theorem submit_error_of_invalid (st : Store) (sub : Submission)
    (h : validateForm sub ≠ noErrors) :
    submit st sub = .error (validateForm sub) := by
  unfold submit
  rw [if_neg h]

theorem submitOp_of_valid (st : Store) (sub : Submission)
    (h : validateForm sub = noErrors) :
    submitOp st sub = st ++ [⟨nextSno st,
      sanitize (sub.fname.getD ""), sanitize (sub.lname.getD ""),
      sanitize (sub.email.getD "")⟩] := by
  unfold submitOp
  rw [submit_ok_of_valid st sub h]

theorem submitOp_of_invalid (st : Store) (sub : Submission)
    (h : validateForm sub ≠ noErrors) :
    submitOp st sub = st := by
  unfold submitOp
  rw [submit_error_of_invalid st sub h]

theorem submit_ok_inv {st st2 : Store} {sub : Submission}
    (h : submit st sub = .ok st2) :
    validateForm sub = noErrors ∧
    st2 = st ++ [⟨nextSno st, sanitize (sub.fname.getD ""),
      sanitize (sub.lname.getD ""), sanitize (sub.email.getD "")⟩] := by
  unfold submit at h
  split_ifs at h with hv
  simp only [Except.ok.injEq] at h
  exact ⟨hv, h.symm⟩

/-! ### Identifier assignment -/

theorem maxSno_cons (r : FirstApp) (t : Store) :
    maxSno (r :: t) = max r.sno (maxSno t) := rfl

theorem foldr_max_init (st : Store) (a : Nat) :
    st.foldr (fun r b => max r.sno b) a = max (maxSno st) a := by
  induction st with
  | nil => simp [maxSno]
  | cons r t ih =>
    rw [List.foldr_cons, ih, maxSno_cons, Nat.max_assoc]

theorem maxSno_append_single (st : Store) (r : FirstApp) :
    maxSno (st ++ [r]) = max (maxSno st) r.sno := by
  show (st ++ [r]).foldr (fun r a => max r.sno a) 0 = max (maxSno st) r.sno
  rw [List.foldr_append,
    show ([r] : Store).foldr (fun r a => max r.sno a) 0 = r.sno by simp,
    foldr_max_init]

theorem nextSno_append (st : Store) (f l e : String) :
    nextSno (st ++ [⟨nextSno st, f, l, e⟩]) = nextSno st + 1 := by
  unfold nextSno
  rw [maxSno_append_single]
  show max (maxSno st) (maxSno st + 1) + 1 = maxSno st + 1 + 1
  rw [Nat.max_eq_right (Nat.le_succ _)]

/-! ### Sequential submission -/

theorem submitMany_spec (inputs : List (String × String × String)) :
    ∀ st : Store, (∀ i ∈ inputs, acceptedB i = true) →
      (submitMany st inputs).map fields =
        st.map fields ++ inputs.map sanitizeTriple ∧
      (submitMany st inputs).map FirstApp.sno =
        st.map FirstApp.sno ++ List.range' (nextSno st) inputs.length := by
  induction inputs with
  | nil =>
    intro st _
    simp [submitMany]
  | cons i t ih =>
    intro st h
    have hacc : validateForm ⟨some i.1, some i.2.1, some i.2.2⟩ = noErrors := by
      have hb := h i (List.mem_cons_self i t)
      unfold acceptedB at hb
      exact beq_iff_eq.mp hb
    have hstep : submitMany st (i :: t) =
        submitMany (st ++ [⟨nextSno st, sanitize i.1, sanitize i.2.1,
          sanitize i.2.2⟩]) t := by
      unfold submitMany
      rw [List.foldl_cons]
      congr 2
      rw [submitOp_of_valid _ _ hacc]
      simp [Option.getD_some]
    obtain ⟨ih1, ih2⟩ :=
      ih (st ++ [⟨nextSno st, sanitize i.1, sanitize i.2.1, sanitize i.2.2⟩])
        (fun j hj => h j (List.mem_cons_of_mem i hj))
    constructor
    · rw [hstep, ih1]
      simp [fields, sanitizeTriple, List.map_append]
    · rw [hstep, ih2, nextSno_append]
      simp only [List.map_append, List.map_cons, List.map_nil,
        List.length_cons, List.range'_succ, List.append_assoc,
        List.singleton_append]

/-! ### Markup and the name pattern -/

theorem mem_regexBody_of_ne_newline {l : List Char} {c : Char}
    (hc : c ∈ l) (hne : c ≠ '\n') : c ∈ regexBody l := by
  unfold regexBody
  by_cases hl : (l.getLast? == some '\n') = true
  · rw [if_pos hl]
    rw [beq_iff_eq] at hl
    have hlne : l ≠ [] := by intro h0; rw [h0] at hl; simp at hl
    have hgl : l.getLast hlne = '\n' := by
      have hx := List.getLast?_eq_getLast_of_ne_nil hlne
      rw [hl] at hx
      exact (Option.some.injEq _ _ ▸ hx).symm
    have hdecomp := List.dropLast_append_getLast hlne
    rw [hgl] at hdecomp
    rw [← hdecomp] at hc
    rcases List.mem_append.mp hc with h1 | h1
    · exact h1
    · simp at h1
      exact absurd h1 hne
  · rw [if_neg hl]
    exact hc

theorem matchesNameRegexp_false_of_mem {s : String} {c : Char}
    (hc : c ∈ s.data) (hname : isNameChar c = false) (hne : c ≠ '\n') :
    matchesNameRegexp s = false := by
  by_contra hmt
  rw [Bool.not_eq_false] at hmt
  rw [matchesNameRegexp, Bool.and_eq_true, List.all_eq_true] at hmt
  have hx := hmt.2 c (mem_regexBody_of_ne_newline hc hne)
  rw [hname] at hx
  exact Bool.false_ne_true hx

theorem validateName_ne_none_of_mem {s : String} {c : Char}
    (hc : c ∈ s.data) (hname : isNameChar c = false) (hne : c ≠ '\n') :
    validateName (some s) ≠ none := by
  intro h
  have hall := (validateName_none_iff s).mp h
  have h2 := hall.2.2
  rw [matchesNameRegexp_false_of_mem hc hname hne] at h2
  exact Bool.false_ne_true h2

theorem mem_escapeList {d : Char} {l : List Char} (hd : d ∈ escapeList l) :
    ∃ c ∈ l, d ∈ escapeChar c := by
  induction l with
  | nil => cases hd
  | cons a t ih =>
    rw [escapeList_cons] at hd
    rcases List.mem_append.mp hd with h | h
    · exact ⟨a, List.mem_cons_self a t, h⟩
    · obtain ⟨c, hc, hdc⟩ := ih h
      exact ⟨c, List.mem_cons_of_mem a hc, hdc⟩

theorem noRawMarkup_escapeChar (c d : Char) (hd : d ∈ escapeChar c) :
    (!(d == '<' || d == '>' || d == Char.ofNat 34 || d == Char.ofNat 39)) = true := by
  unfold escapeChar at hd
  split_ifs at hd with h1 h2 h3 h4 h5
  · fin_cases hd <;> decide
  · fin_cases hd <;> decide
  · fin_cases hd <;> decide
  · fin_cases hd <;> decide
  · fin_cases hd <;> decide
  · simp only [List.mem_singleton] at hd
    subst hd
    have e2 : (d == '<') = false := by simpa using h2
    have e3 : (d == '>') = false := by simpa using h3
    have e4 : (d == Char.ofNat 34) = false := by simpa using h4
    have e5 : (d == Char.ofNat 39) = false := by simpa using h5
    simp [e2, e3, e4, e5]

theorem noRawMarkup_escape (s : String) : noRawMarkup (escape s) = true := by
  unfold noRawMarkup escape
  rw [List.all_eq_true]
  intro d hd
  obtain ⟨c, -, hdc⟩ := mem_escapeList hd
  exact noRawMarkup_escapeChar c d hdc

/-! ### Stored rows -/

theorem stored_name_ok {s : String} (h : validateName (some s) = none) :
    1 ≤ (sanitize s).length ∧ (sanitize s).length ≤ 100 ∧
    (sanitize s).data.all isNameChar = true := by
  obtain ⟨hne, ⟨h2, h100⟩, hm⟩ := (validateName_none_iff s).mp h
  rw [sanitize_of_matches hm]
  push_neg at hne
  obtain ⟨hne1, hne2⟩ := hne
  refine ⟨?_, ?_, ?_⟩
  · have hd : (pyStrip s).data ≠ [] := by
      intro h0
      apply hne2
      apply String.ext
      rw [h0]
    exact List.length_pos.mpr hd
  · calc (pyStrip s).length = (stripChars s.data).length := rfl
      _ ≤ s.data.length := length_stripChars_le _
      _ = s.length := rfl
      _ ≤ 100 := h100
  · rw [List.all_eq_true]
    exact fun c hc => stripChars_of_matches hm c hc

theorem amendedValid_of_validateName {d : Option String}
    (h : validateName d = none) : amendedValidNameOpt d = true := by
  rcases d with - | s
  · simp [validateName] at h
  · obtain ⟨-, ⟨h2, h100⟩, hm⟩ := (validateName_none_iff s).mp h
    unfold amendedValidNameOpt amendedValidName
    rw [matchesNameRegexp] at hm
    simp only [Bool.and_eq_true] at hm ⊢
    exact ⟨⟨⟨by simpa using h2, by simpa using h100⟩, hm.1⟩, hm.2⟩

theorem specValidEmail_of_validateEmail {d : Option String}
    (h : validateEmail d = none) : specValidEmailOpt d = true := by
  rcases d with - | s
  · simp [validateEmail] at h
  · obtain ⟨-, hv, hlen⟩ := (validateEmail_none_iff s).mp h
    unfold specValidEmailOpt specValidEmail
    simp only [Bool.and_eq_true]
    exact ⟨hv, by simpa using hlen⟩

/-! ### The claims -/

/-- C1 (amended): for every submission whose three fields satisfy the
data-model constraints (names of 2 to 100 letters and spaces, well-formed
email of at most 200 characters) and whose names are not whitespace-only,
`submit` succeeds and the new record appears in `list()` with exactly the
sanitized field values. -/
theorem c1_valid_submission_succeeds (st : Store) (f l e : String)
    (hf : specValidName f = true) (hfs : pyStrip f ≠ "")
    (hl : specValidName l = true) (hls : pyStrip l ≠ "")
    (he : specValidEmail e = true) :
    submit st ⟨some f, some l, some e⟩ =
      .ok (st ++ [⟨nextSno st, sanitize f, sanitize l, sanitize e⟩]) ∧
    listRecords (submitOp st ⟨some f, some l, some e⟩) =
      st ++ [⟨nextSno st, sanitize f, sanitize l, sanitize e⟩] := by
  have hv : validateForm ⟨some f, some l, some e⟩ = noErrors := by
    rw [validateForm_eq_noErrors_iff]
    exact ⟨validateName_none_of_spec hf hfs, validateName_none_of_spec hl hls,
      validateEmail_none_of_spec he⟩
  constructor
  · have h0 := submit_ok_of_valid st ⟨some f, some l, some e⟩ hv
    simpa using h0
  · have h0 := submitOp_of_valid st ⟨some f, some l, some e⟩ hv
    unfold listRecords
    simpa using h0

/-- Witness for C1: a concrete valid submission on the empty store. -/
theorem c1_witness :
    submit [] ⟨some "Ada", some "Lovelace", some "ada@example.com"⟩ =
      .ok ([] ++ [⟨nextSno [], sanitize "Ada", sanitize "Lovelace",
        sanitize "ada@example.com"⟩]) ∧
    listRecords (submitOp []
        ⟨some "Ada", some "Lovelace", some "ada@example.com"⟩) =
      [] ++ [⟨nextSno [], sanitize "Ada", sanitize "Lovelace",
        sanitize "ada@example.com"⟩] :=
  c1_valid_submission_succeeds [] "Ada" "Lovelace" "ada@example.com"
    (by decide) (by decide) (by decide) (by decide) (by decide)

/-- C1 as stated is false: "  " (two spaces) is 2 characters drawn from
letters and spaces, and the other fields are valid, yet `submit` rejects
the submission (`DataRequired` fails on whitespace-only input), so no
record is stored. -/
theorem c1_counterexample :
    specValidName "  " = true ∧ specValidName "Ab" = true ∧
    specValidEmail "a@b.co" = true ∧
    submit [] ⟨some "  ", some "Ab", some "a@b.co"⟩ =
      .error ⟨some FieldError.required, none, none⟩ :=
  ⟨by decide, by decide, by decide, rfl⟩

/-- C2 (amended): if any field is missing or violates its constraint —
where the disallowed-character constraint on names tolerates one single
trailing newline, which the pattern anchor accepts — then `submit`
rejects the submission, the per-field error reports the violating field,
and the stored list is exactly as before. -/
theorem c2_invalid_submission_rejected (st : Store) (sub : Submission)
    (h : amendedValidNameOpt sub.fname = false ∨
         amendedValidNameOpt sub.lname = false ∨
         specValidEmailOpt sub.email = false) :
    submit st sub = .error (validateForm sub) ∧
    (amendedValidNameOpt sub.fname = false → (validateForm sub).fname ≠ none) ∧
    (amendedValidNameOpt sub.lname = false → (validateForm sub).lname ≠ none) ∧
    (specValidEmailOpt sub.email = false → (validateForm sub).email ≠ none) ∧
    submitOp st sub = st := by
  have hf : amendedValidNameOpt sub.fname = false →
      (validateForm sub).fname ≠ none := by
    intro h0 hnone
    rw [show (validateForm sub).fname = validateName sub.fname from rfl] at hnone
    rw [amendedValid_of_validateName hnone] at h0
    simp at h0
  have hlm : amendedValidNameOpt sub.lname = false →
      (validateForm sub).lname ≠ none := by
    intro h0 hnone
    rw [show (validateForm sub).lname = validateName sub.lname from rfl] at hnone
    rw [amendedValid_of_validateName hnone] at h0
    simp at h0
  have he : specValidEmailOpt sub.email = false →
      (validateForm sub).email ≠ none := by
    intro h0 hnone
    rw [show (validateForm sub).email = validateEmail sub.email from rfl] at hnone
    rw [specValidEmail_of_validateEmail hnone] at h0
    simp at h0
  have hvf : validateForm sub ≠ noErrors := by
    intro hv
    rw [validateForm_eq_noErrors_iff] at hv
    rcases h with h0 | h0 | h0
    · exact hf h0 hv.1
    · exact hlm h0 hv.2.1
    · exact he h0 hv.2.2
  exact ⟨submit_error_of_invalid st sub hvf, hf, hlm, he,
    submitOp_of_invalid st sub hvf⟩

/-- Witness for C2: a name with a forbidden character is rejected with a
field error on the name, and the store stays empty. -/
theorem c2_witness :
    submit [] ⟨some "a!", some "Ab", some "a@b.co"⟩ =
      .error (validateForm ⟨some "a!", some "Ab", some "a@b.co"⟩) ∧
    (amendedValidNameOpt (some "a!") = false →
      (validateForm ⟨some "a!", some "Ab", some "a@b.co"⟩).fname ≠ none) ∧
    (amendedValidNameOpt (some "Ab") = false →
      (validateForm ⟨some "a!", some "Ab", some "a@b.co"⟩).lname ≠ none) ∧
    (specValidEmailOpt (some "a@b.co") = false →
      (validateForm ⟨some "a!", some "Ab", some "a@b.co"⟩).email ≠ none) ∧
    submitOp [] ⟨some "a!", some "Ab", some "a@b.co"⟩ = [] :=
  c2_invalid_submission_rejected [] ⟨some "a!", some "Ab", some "a@b.co"⟩
    (Or.inl (by decide))

/-- C2 as stated is false: "ab\n" contains a newline, which is neither a
letter nor a space, yet the submission is accepted (Python's `$` anchor
matches just before a trailing newline) and a row is stored. -/
theorem c2_counterexample :
    specValidName "ab\n" = false ∧
    submit [] ⟨some "ab\n", some "Ab", some "a@b.co"⟩ =
      .ok [⟨1, "ab", "Ab", "a@b.co"⟩] :=
  ⟨by decide, rfl⟩

/-- C3 (amended): every row `submit` inserts satisfies, at insert time:
the name columns are nonempty, at most 100 characters, letters and
spaces only; the email column holds the escape of the stripped form of a
well-formed email of at most 200 characters.  The 2-character minimum is
only guaranteed for the raw input, not for the stored stripped value. -/
theorem c3_stored_record_constraints (st : Store) (sub : Submission)
    (r : FirstApp) (hr : r ∈ submitOp st sub) : r ∈ st ∨ storedOk r := by
  unfold submitOp at hr
  cases hsub : submit st sub with
  | error errs =>
    rw [hsub] at hr
    exact Or.inl hr
  | ok st2 =>
    rw [hsub] at hr
    obtain ⟨hv, hst2⟩ := submit_ok_inv hsub
    subst hst2
    rcases List.mem_append.mp hr with h1 | h1
    · exact Or.inl h1
    · right
      simp only [List.mem_singleton] at h1
      subst h1
      rw [validateForm_eq_noErrors_iff] at hv
      obtain ⟨hvf, hvl, hve⟩ := hv
      have hvf2 : validateName (some (sub.fname.getD "")) = none := by
        rw [← validateName_some_self hvf]
        exact hvf
      have hvl2 : validateName (some (sub.lname.getD "")) = none := by
        rw [← validateName_some_self hvl]
        exact hvl
      obtain ⟨e0, he0⟩ : ∃ e0, sub.email = some e0 := by
        cases hemail : sub.email
        · rw [hemail] at hve
          simp [validateEmail] at hve
        · exact ⟨_, rfl⟩
      have hve2 : validateEmail (some e0) = none := by
        rw [← he0]
        exact hve
      obtain ⟨-, hev, helen⟩ := (validateEmail_none_iff e0).mp hve2
      obtain ⟨hn1, hn2, hn3⟩ := stored_name_ok hvf2
      obtain ⟨hm1, hm2, hm3⟩ := stored_name_ok hvl2
      refine ⟨hn1, hn2, hn3, hm1, hm2, hm3, e0, hev, helen, ?_⟩
      show sanitize (sub.email.getD "") = sanitize e0
      rw [he0, Option.getD_some]

/-- Witness for C3: the row inserted by an accepted submission satisfies
the amended stored-row property. -/
theorem c3_witness :
    (⟨1, "A", "Ab", "a@b.co"⟩ : FirstApp) ∈ ([] : Store) ∨
    storedOk ⟨1, "A", "Ab", "a@b.co"⟩ :=
  c3_stored_record_constraints [] ⟨some " A", some "Ab", some "a@b.co"⟩
    ⟨1, "A", "Ab", "a@b.co"⟩ (by decide)

/-- C3 as stated is false on both the name and the email clause.
Name: the accepted submission with first name " A" stores the stripped
value "A", which is 1 character long and so violates the
2-to-100-character constraint at insert time.  Email: "a&b@c.co" is a
well-formed email (`&` is an atext character), yet the stored value is
its escape "a&amp;b@c.co", which is not valid email syntax (`;` may not
appear in an unquoted local part). -/
theorem c3_counterexample :
    (submit [] ⟨some " A", some "Ab", some "a@b.co"⟩ =
        .ok [⟨1, "A", "Ab", "a@b.co"⟩] ∧
      specValidName "A" = false) ∧
    (specValidEmail "a&b@c.co" = true ∧
      submit [] ⟨some "Ab", some "Cd", some "a&b@c.co"⟩ =
        .ok [⟨1, "Ab", "Cd", "a&amp;b@c.co"⟩] ∧
      specValidEmail "a&amp;b@c.co" = false) :=
  ⟨⟨rfl, by decide⟩, by decide, rfl, by decide⟩

/-- C4: starting from the empty table, a sequence of accepted submissions
stores one row per submission, carrying the sanitized field values in
submission order, with identifiers exactly 1, 2, ..., N — distinct and
strictly increasing — and `list()` returns them in that insertion order. -/
theorem c4_sequential_submissions (inputs : List (String × String × String))
    (h : ∀ i ∈ inputs, acceptedB i = true) :
    (submitMany [] inputs).length = inputs.length ∧
    (submitMany [] inputs).map fields = inputs.map sanitizeTriple ∧
    (submitMany [] inputs).map FirstApp.sno = List.range' 1 inputs.length ∧
    ((submitMany [] inputs).map FirstApp.sno).Pairwise (· < ·) ∧
    listRecords (submitMany [] inputs) = submitMany [] inputs := by
  obtain ⟨h1, h2⟩ := submitMany_spec inputs [] h
  simp only [List.map_nil, List.nil_append] at h1 h2
  rw [show nextSno [] = 1 from rfl] at h2
  refine ⟨?_, h1, h2, ?_, rfl⟩
  · have h3 := congrArg List.length h1
    simpa using h3
  · rw [h2]
    exact List.pairwise_lt_range' 1 inputs.length

/-- Witness for C4: two concrete accepted submissions yield two rows. -/
theorem c4_witness :
    (submitMany [] [("Ada", "Lovelace", "ada@ex.co"),
      ("Alan", "Turing", "alan@ex.co")]).map FirstApp.sno =
      List.range' 1 ([("Ada", "Lovelace", "ada@ex.co"),
        ("Alan", "Turing", "alan@ex.co")] :
          List (String × String × String)).length :=
  (c4_sequential_submissions _ (by decide)).2.2.1

/-- C5: `find_by_first_name` returns exactly the stored rows whose
`fname` column equals the supplied name, and the empty list — not an
error — when nothing matches; the request leaves the state unchanged. -/
theorem c5_find_exact_match (st : Store) (name : String) :
    (∀ r : FirstApp, r ∈ findByFirstName st name ↔ r ∈ st ∧ r.fname = name) ∧
    ((∀ r ∈ st, r.fname ≠ name) → findByFirstName st name = []) ∧
    searchOp st name = (findByFirstName st name, st) := by
  refine ⟨?_, ?_, rfl⟩
  · intro r
    unfold findByFirstName
    rw [List.mem_filter]
    simp [beq_iff_eq]
  · intro h
    unfold findByFirstName
    rw [List.filter_eq_nil_iff]
    intro r hr
    simpa [beq_iff_eq] using h r hr

/-- Witness for C5 at a store holding one row named Robert. -/
theorem c5_witness :
    (∀ r : FirstApp,
      r ∈ findByFirstName [⟨1, "Robert", "Ca", "r@ex.co"⟩] "Robert" ↔
      r ∈ [(⟨1, "Robert", "Ca", "r@ex.co"⟩ : FirstApp)] ∧ r.fname = "Robert") ∧
    ((∀ r ∈ [(⟨1, "Robert", "Ca", "r@ex.co"⟩ : FirstApp)],
        r.fname ≠ "Robert") →
      findByFirstName [⟨1, "Robert", "Ca", "r@ex.co"⟩] "Robert" = []) ∧
    searchOp [⟨1, "Robert", "Ca", "r@ex.co"⟩] "Robert" =
      (findByFirstName [⟨1, "Robert", "Ca", "r@ex.co"⟩] "Robert",
        [⟨1, "Robert", "Ca", "r@ex.co"⟩]) :=
  c5_find_exact_match [⟨1, "Robert", "Ca", "r@ex.co"⟩] "Robert"

/-- C6: the SQL text of `search_user` does not depend on the supplied
name (which is only bound as the parameter `:fname`), the lookup is a
total function (a row list comes back, never an error), and every
returned row is a stored row whose `fname` equals the supplied name
exactly. -/
theorem c6_query_structure_fixed (n1 n2 : String) (st : Store) :
    searchQueryText n1 = searchQueryText n2 ∧
    searchQueryText n1 = "SELECT * FROM first_app WHERE fname = :fname" ∧
    searchParams n1 = [("fname", n1)] ∧
    (∀ r ∈ findByFirstName st n1, r ∈ st ∧ r.fname = n1) := by
  refine ⟨rfl, rfl, rfl, ?_⟩
  intro r hr
  unfold findByFirstName at hr
  rw [List.mem_filter] at hr
  exact ⟨hr.1, by simpa using hr.2⟩

/-- Witness for C6 with a name crafted to look like SQL syntax. -/
theorem c6_witness :
    searchQueryText "Robert; DROP TABLE first_app" = searchQueryText "x" ∧
    searchQueryText "Robert; DROP TABLE first_app" =
      "SELECT * FROM first_app WHERE fname = :fname" ∧
    searchParams "Robert; DROP TABLE first_app" =
      [("fname", "Robert; DROP TABLE first_app")] ∧
    (∀ r ∈ findByFirstName [⟨1, "Robert", "Ca", "r@ex.co"⟩]
        "Robert; DROP TABLE first_app",
      r ∈ [(⟨1, "Robert", "Ca", "r@ex.co"⟩ : FirstApp)] ∧
      r.fname = "Robert; DROP TABLE first_app") :=
  c6_query_structure_fixed "Robert; DROP TABLE first_app" "x"
    [⟨1, "Robert", "Ca", "r@ex.co"⟩]

/-- C7: a name carrying an embedded markup tag (hence the character `<`)
never passes validation, so nothing is stored for it; and every row that
a successful submission does store has all three fields escaped, so no
raw markup-significant character (angle bracket or quote) reaches
storage. -/
theorem c7_markup_neutralized (st : Store) (sub : Submission) :
    (∀ s : String, sub.fname = some s → '<' ∈ s.data → submitOp st sub = st) ∧
    (∀ st2 : Store, submit st sub = .ok st2 → ∀ r ∈ st2, r ∈ st ∨
      (noRawMarkup r.fname = true ∧ noRawMarkup r.lname = true ∧
       noRawMarkup r.email = true)) := by
  constructor
  · intro s hs hlt
    apply submitOp_of_invalid
    intro hv
    rw [validateForm_eq_noErrors_iff] at hv
    rw [hs] at hv
    exact validateName_ne_none_of_mem hlt (by decide) (by decide) hv.1
  · intro st2 hok r hr
    obtain ⟨hv, hst2⟩ := submit_ok_inv hok
    subst hst2
    rcases List.mem_append.mp hr with h1 | h1
    · exact Or.inl h1
    · right
      simp only [List.mem_singleton] at h1
      subst h1
      exact ⟨noRawMarkup_escape _, noRawMarkup_escape _, noRawMarkup_escape _⟩

/-- Witness for C7: a script payload in the name leaves the store empty. -/
theorem c7_witness :
    submitOp [] ⟨some "<script>alert</script>", some "Ab", some "a@b.co"⟩ =
      [] :=
  (c7_markup_neutralized []
      ⟨some "<script>alert</script>", some "Ab", some "a@b.co"⟩).1
    "<script>alert</script>" rfl (by decide)

/-- C8: the store is append-only: a submission either leaves the table
unchanged or appends one new row after the existing ones, every existing
row (including its id) is still found unchanged at its old position
afterwards, and the listing and search requests do not change the state
at all. -/
theorem c8_append_only (st : Store) (sub : Submission) (name : String) :
    (submitOp st sub = st ∨
      submitOp st sub = st ++ [⟨nextSno st, sanitize (sub.fname.getD ""),
        sanitize (sub.lname.getD ""), sanitize (sub.email.getD "")⟩]) ∧
    (∀ i, i < st.length → (submitOp st sub).get? i = st.get? i) ∧
    (listOp st).2 = st ∧
    (searchOp st name).2 = st := by
  have hsplit : submitOp st sub = st ∨
      submitOp st sub = st ++ [⟨nextSno st, sanitize (sub.fname.getD ""),
        sanitize (sub.lname.getD ""), sanitize (sub.email.getD "")⟩] := by
    by_cases hv : validateForm sub = noErrors
    · exact Or.inr (submitOp_of_valid st sub hv)
    · exact Or.inl (submitOp_of_invalid st sub hv)
  refine ⟨hsplit, ?_, rfl, rfl⟩
  intro i hi
  rcases hsplit with h | h
  · rw [h]
  · rw [h, List.get?_append hi]

/-- Witness for C8: the pre-existing row is untouched by a submission. -/
theorem c8_witness :
    (submitOp [⟨1, "Bo", "Ab", "a@b.co"⟩]
      ⟨some "Cy", some "De", some "c@d.co"⟩).get? 0 =
      ([⟨1, "Bo", "Ab", "a@b.co"⟩] : Store).get? 0 :=
  (c8_append_only [⟨1, "Bo", "Ab", "a@b.co"⟩]
    ⟨some "Cy", some "De", some "c@d.co"⟩ "x").2.1 0 (by decide)

/-- C9: `index` strips each validated field before escaping and storing
it, so an accepted name with a leading or trailing space is stored with
a value different from what was submitted. -/
theorem c9_strip_before_store (st : Store) (f l e : String)
    (hacc : validateForm ⟨some f, some l, some e⟩ = noErrors)
    (hsp : f.data.head? = some ' ' ∨ f.data.getLast? = some ' ') :
    submit st ⟨some f, some l, some e⟩ =
      .ok (st ++ [⟨nextSno st, escape (pyStrip f), escape (pyStrip l),
        escape (pyStrip e)⟩]) ∧
    escape (pyStrip f) ≠ f := by
  constructor
  · have h0 := submit_ok_of_valid st ⟨some f, some l, some e⟩ hacc
    simpa [sanitize] using h0
  · intro heq
    have hstrip : stripChars f.data ≠ f.data := by
      rcases hsp with h0 | h0
      · exact stripChars_ne_of_head h0 (by decide)
      · exact stripChars_ne_of_getLast h0 (by decide)
    apply hstrip
    have hps : pyStrip f = f := by
      calc pyStrip f = pyStrip (escape (pyStrip f)) := by rw [heq]
        _ = escape (pyStrip f) := pyStrip_sanitize f
        _ = f := heq
    exact congrArg String.data hps

/-- Witness for C9: " A" passes validation (length 2, letters and
spaces) but is stored as "A". -/
theorem c9_witness :
    submit [] ⟨some " A", some "Ba", some "b@c.co"⟩ =
      .ok ([] ++ [⟨nextSno [], escape (pyStrip " A"), escape (pyStrip "Ba"),
        escape (pyStrip "b@c.co")⟩]) ∧
    escape (pyStrip " A") ≠ " A" :=
  c9_strip_before_store [] " A" "Ba" "b@c.co" (by decide) (Or.inl (by decide))

/-- C10: for every row, dict-style access by column name and tuple-style
access by index yield the same values, given the declared column order
(sno, fname, lname, email): positions 1, 2 and 3 hold exactly fname,
lname and email. -/
theorem c10_row_access_agree (r : FirstApp) :
    rowDictGet (rowOfRecord r) "fname" = (rowOfRecord r).get? 1 ∧
    rowDictGet (rowOfRecord r) "lname" = (rowOfRecord r).get? 2 ∧
    rowDictGet (rowOfRecord r) "email" = (rowOfRecord r).get? 3 ∧
    (rowOfRecord r).get? 1 = some (SqlValue.strVal r.fname) ∧
    (rowOfRecord r).get? 2 = some (SqlValue.strVal r.lname) ∧
    (rowOfRecord r).get? 3 = some (SqlValue.strVal r.email) :=
  ⟨rfl, rfl, rfl, rfl, rfl, rfl⟩

end RecordIntake
